import Mathlib

/-!
Shallow embedding of the telex_agora huddle registry (`HuddleStore` in the
Go source) and proofs about its operations.

The Go store is `map[string]*Huddle` guarded by a lock; we embed it as an
association-style `List Huddle` keyed by the `id` field (one entry per key,
list order standing in for map iteration order).  Nondeterministic inputs of
the code — `uuid.New().String()` and `time.Now()` — are threaded as explicit
arguments `freshId` and `now`; the spec's collision-free id assumption becomes
an explicit freshness hypothesis where needed.  Go's `error` results become
`Except String` carrying the literal error messages.
-/

/-- The `Huddle` struct: id, channel name, creator, creation time, and the
ordered participant list. -/
structure Huddle where
  id : String
  channelName : String
  createdBy : String
  createdAt : Nat
  participants : List String
deriving DecidableEq, Repr

/-- The in-memory store: the huddles map, one entry per id. -/
abbrev HuddleStore := List Huddle

/-- The ids currently present in the store (the map's key set). -/
def storeIds (s : HuddleStore) : List String := s.map Huddle.id

/-- The channel names of the active huddles. -/
def storeChannels (s : HuddleStore) : List String := s.map Huddle.channelName

/-- Apply `f` to the first element satisfying `p`, leaving the rest alone.
This is how a pointer update of one map entry acts on the association list. -/
def updateFirstP : HuddleStore → (Huddle → Bool) → (Huddle → Huddle) → HuddleStore
  | [], _, _ => []
  | h :: t, p, f => if p h then f h :: t else h :: updateFirstP t p f

/-- Go map assignment `s.huddles[h.ID] = h`: replace the entry with that key
if present, otherwise add a new entry. -/
def insertHuddle (s : HuddleStore) (h : Huddle) : HuddleStore :=
  if s.any (fun h0 => h0.id == h.id) then
    updateFirstP s (fun h0 => h0.id == h.id) (fun _ => h)
  else
    s ++ [h]

/-- `HuddleStore.Create`: make a huddle with the fresh uuid `freshId`,
channel name `"huddle_" ++` the first 8 characters of that id, the given
creator, the current time and no participants, and store it under its id. -/
def HuddleStore.Create (s : HuddleStore) (createdBy : String)
    (freshId : String) (now : Nat) : Huddle × HuddleStore :=
  let huddle : Huddle :=
    { id := freshId
      channelName := "huddle_" ++ freshId.take 8
      createdBy := createdBy
      createdAt := now
      participants := [] }
  (huddle, insertHuddle s huddle)

/-- `HuddleStore.GetByChannel`: scan for a huddle with the given channel. -/
def HuddleStore.GetByChannel (s : HuddleStore) (channelName : String) :
    Option Huddle :=
  s.find? (fun h => h.channelName == channelName)

/-- `HuddleStore.Get`: map lookup by huddle id. -/
def HuddleStore.Get (s : HuddleStore) (huddleID : String) : Option Huddle :=
  s.find? (fun h => h.id == huddleID)

/-- The participant append performed by `Join` when the user is new. -/
def joinAppend (userID : String) (h : Huddle) : Huddle :=
  { h with participants := h.participants ++ [userID] }

/-- `HuddleStore.Join`: error `"huddle not found"` if the id is absent;
no-op if the user is already a participant; otherwise append the user to
the addressed huddle's participant list. -/
def HuddleStore.Join (s : HuddleStore) (huddleID userID : String) :
    Except String HuddleStore :=
  match s.find? (fun h => h.id == huddleID) with
  | none => .error "huddle not found"
  | some huddle =>
    if huddle.participants.any (fun p => p == userID) then
      .ok s
    else
      .ok (updateFirstP s (fun h => h.id == huddleID) (joinAppend userID))

/-- The participant removal performed by `Leave`: drop the first occurrence
of the user from the list (Go's `append(ps[:i], ps[i+1:]...)` at the first
matching index). -/
def leaveRemove (userID : String) (h : Huddle) : Huddle :=
  { h with participants := h.participants.erase userID }

/-- `HuddleStore.Leave`: error `"huddle not found"` if the id is absent;
remove the user's first occurrence if present; otherwise error
`"user not in huddle"`. -/
def HuddleStore.Leave (s : HuddleStore) (huddleID userID : String) :
    Except String HuddleStore :=
  match s.find? (fun h => h.id == huddleID) with
  | none => .error "huddle not found"
  | some huddle =>
    if huddle.participants.any (fun p => p == userID) then
      .ok (updateFirstP s (fun h => h.id == huddleID) (leaveRemove userID))
    else
      .error "user not in huddle"

/-- `HuddleStore.End`: delete the huddle with the given id from the map, or
error `"huddle not found"` if absent. -/
def HuddleStore.End (s : HuddleStore) (huddleID : String) :
    Except String HuddleStore :=
  if s.any (fun h => h.id == huddleID) then
    .ok (s.filter (fun h => !(h.id == huddleID)))
  else
    .error "huddle not found"

/-- `HuddleStore.EndByChannel`: find a huddle with the given channel name and
delete it by its id, or error `"huddle not found"` if none matches. -/
def HuddleStore.EndByChannel (s : HuddleStore) (channelName : String) :
    Except String HuddleStore :=
  match s.find? (fun h => h.channelName == channelName) with
  | none => .error "huddle not found"
  | some huddle => .ok (s.filter (fun h => !(h.id == huddle.id)))

/-- `HuddleStore.GetOrCreate`: return the huddle with the given channel name
if one exists; otherwise create one whose channel name is exactly the given
string, created by `userID`, with a fresh uuid and empty participants. -/
def HuddleStore.GetOrCreate (s : HuddleStore) (channelName userID : String)
    (freshId : String) (now : Nat) : Huddle × HuddleStore :=
  match s.find? (fun h => h.channelName == channelName) with
  | some huddle => (huddle, s)
  | none =>
    let huddle : Huddle :=
      { id := freshId
        channelName := channelName
        createdBy := userID
        createdAt := now
        participants := [] }
    (huddle, insertHuddle s huddle)

/-- The update `JoinByChannel` applies to the first huddle matching the
channel: append the user unless already a participant. -/
def joinByChannelUpdate (userID : String) (h : Huddle) : Huddle :=
  if h.participants.any (fun p => p == userID) then h
  else { h with participants := h.participants ++ [userID] }

/-- `HuddleStore.JoinByChannel`: scan for a huddle with the given channel
name and add the user to it unless already present; if no huddle matches,
return silently with no error and no change. -/
def HuddleStore.JoinByChannel (s : HuddleStore) (channelName userID : String) :
    HuddleStore :=
  updateFirstP s (fun h => h.channelName == channelName)
    (joinByChannelUpdate userID)

/-- The registry operations a caller can invoke, with the nondeterministic
uuid and clock inputs made explicit. -/
inductive Op where
  | create (createdBy freshId : String) (now : Nat)
  | getOrCreate (channelName userID freshId : String) (now : Nat)
  | join (huddleID userID : String)
  | joinByChannel (channelName userID : String)
  | leave (huddleID userID : String)
  | endHuddle (huddleID : String)
  | endByChannel (channelName : String)

/-- Run one operation on the store; a failed operation leaves it unchanged. -/
def applyOp (s : HuddleStore) : Op → HuddleStore
  | .create cb fid now => (HuddleStore.Create s cb fid now).2
  | .getOrCreate c u fid now => (HuddleStore.GetOrCreate s c u fid now).2
  | .join i u =>
    match HuddleStore.Join s i u with
    | .ok s' => s'
    | .error _ => s
  | .joinByChannel c u => HuddleStore.JoinByChannel s c u
  | .leave i u =>
    match HuddleStore.Leave s i u with
    | .ok s' => s'
    | .error _ => s
  | .endHuddle i =>
    match HuddleStore.End s i with
    | .ok s' => s'
    | .error _ => s
  | .endByChannel c =>
    match HuddleStore.EndByChannel s c with
    | .ok s' => s'
    | .error _ => s

/-- The spec's collision-free uuid assumption: an operation that generates an
id gets one that is not an id of any active huddle. -/
def Op.fresh (s : HuddleStore) : Op → Prop
  | .create _ fid _ => fid ∉ storeIds s
  | .getOrCreate _ _ fid _ => fid ∉ storeIds s
  | _ => True

/-- Store states reachable from the empty store by registry operations whose
generated ids are fresh. -/
inductive Reachable : HuddleStore → Prop
  | empty : Reachable []
  | step {s : HuddleStore} (op : Op) : Reachable s → Op.fresh s op →
      Reachable (applyOp s op)

/-- The extra precondition the code does not check: a `create` step's derived
channel name is not already the channel name of an active huddle. -/
def Op.channelSafe (s : HuddleStore) : Op → Prop
  | .create _ fid _ => ("huddle_" ++ fid.take 8) ∉ storeChannels s
  | _ => True

/-- Store states reachable when, additionally, every `create` step satisfies
`Op.channelSafe`. -/
inductive ReachableSafe : HuddleStore → Prop
  | empty : ReachableSafe []
  | step {s : HuddleStore} (op : Op) : ReachableSafe s → Op.fresh s op →
      Op.channelSafe s op → ReachableSafe (applyOp s op)

/-! ### Helper lemmas about `updateFirstP` and `insertHuddle` -/

theorem updateFirstP_of_forall_not {s : HuddleStore} {p : Huddle → Bool}
    {f : Huddle → Huddle} (hs : ∀ h ∈ s, p h = false) :
    updateFirstP s p f = s := by
  induction s with
  | nil => rfl
  | cons a t ih =>
    simp only [updateFirstP, hs a (List.mem_cons_self a t)]
    simp only [Bool.false_eq_true, if_false, List.cons.injEq, true_and]
    exact ih fun h hh => hs h (List.mem_cons_of_mem a hh)

theorem updateFirstP_of_find?_none {s : HuddleStore} {p : Huddle → Bool}
    {f : Huddle → Huddle} (hf : s.find? p = none) :
    updateFirstP s p f = s := by
  refine updateFirstP_of_forall_not fun h hh => ?_
  have := List.find?_eq_none.mp hf h hh
  simpa using this

theorem updateFirstP_append {a b : HuddleStore} {h : Huddle}
    {p : Huddle → Bool} {f : Huddle → Huddle}
    (ha : ∀ x ∈ a, p x = false) (hh : p h = true) :
    updateFirstP (a ++ h :: b) p f = a ++ f h :: b := by
  induction a with
  | nil => simp [updateFirstP, hh]
  | cons x t ih =>
    have hx : p x = false := ha x (List.mem_cons_self x t)
    simp only [List.cons_append, updateFirstP, hx, Bool.false_eq_true, if_false,
      List.cons.injEq, true_and]
    exact ih fun y hy => ha y (List.mem_cons_of_mem x hy)

theorem find?_decomp {s : HuddleStore} {p : Huddle → Bool} {h : Huddle}
    (hf : s.find? p = some h) :
    p h = true ∧ ∃ a b, s = a ++ h :: b ∧ ∀ x ∈ a, p x = false := by
  have := List.find?_eq_some.mp hf
  obtain ⟨hp, a, b, rfl, ha⟩ := this
  exact ⟨hp, a, b, rfl, fun x hx => by simpa using ha x hx⟩

theorem mem_updateFirstP_of_find? {s : HuddleStore} {p : Huddle → Bool}
    {f : Huddle → Huddle} {h0 h : Huddle} (hf : s.find? p = some h0)
    (hm : h ∈ updateFirstP s p f) : h ∈ s ∨ h = f h0 := by
  obtain ⟨hp, a, b, rfl, ha⟩ := find?_decomp hf
  rw [updateFirstP_append ha hp] at hm
  rcases List.mem_append.mp hm with hma | hmb
  · exact Or.inl (List.mem_append.mpr (Or.inl hma))
  · rcases List.mem_cons.mp hmb with rfl | hmb
    · exact Or.inr rfl
    · exact Or.inl (List.mem_append.mpr (Or.inr (List.mem_cons_of_mem _ hmb)))

theorem map_updateFirstP {α : Type} {s : HuddleStore} {p : Huddle → Bool}
    {f : Huddle → Huddle} (g : Huddle → α) (hg : ∀ h, g (f h) = g h) :
    (updateFirstP s p f).map g = s.map g := by
  induction s with
  | nil => rfl
  | cons a t ih =>
    by_cases hpa : p a = true
    · simp [updateFirstP, hpa, hg a]
    · simp only [Bool.not_eq_true] at hpa
      simp [updateFirstP, hpa, ih]

theorem insertHuddle_fresh {s : HuddleStore} {h : Huddle}
    (hf : h.id ∉ storeIds s) : insertHuddle s h = s ++ [h] := by
  have hany : s.any (fun h0 => h0.id == h.id) = false := by
    rw [List.any_eq_false]
    intro h0 hh0
    simp only [beq_iff_eq]
    intro he
    exact hf (by simpa [storeIds, ← he] using List.mem_map_of_mem Huddle.id hh0)
  simp [insertHuddle, hany]

theorem storeIds_updateFirstP {s : HuddleStore} {p : Huddle → Bool}
    {f : Huddle → Huddle} (hf : ∀ h, (f h).id = h.id) :
    storeIds (updateFirstP s p f) = storeIds s :=
  map_updateFirstP Huddle.id hf

theorem storeChannels_updateFirstP {s : HuddleStore} {p : Huddle → Bool}
    {f : Huddle → Huddle} (hf : ∀ h, (f h).channelName = h.channelName) :
    storeChannels (updateFirstP s p f) = storeChannels s :=
  map_updateFirstP Huddle.channelName hf

/-! ### Characterizations of the fallible operations' success results -/

theorem nodup_concat {α : Type} {l : List α} {a : α} (hl : l.Nodup)
    (ha : a ∉ l) : (l ++ [a]).Nodup := by
  simp [List.nodup_append, hl, ha]

theorem join_ok_eq {s s' : HuddleStore} {i u : String}
    (hJ : HuddleStore.Join s i u = .ok s') :
    s' = s ∨
      ∃ huddle, s.find? (fun h => h.id == i) = some huddle ∧
        huddle.participants.any (fun p => p == u) = false ∧
        s' = updateFirstP s (fun h => h.id == i) (joinAppend u) := by
  unfold HuddleStore.Join at hJ
  split at hJ
  · exact absurd hJ (by simp)
  · rename_i huddle hfind
    split at hJ
    · exact Or.inl (Except.ok.inj hJ).symm
    · rename_i hmem
      exact Or.inr ⟨huddle, hfind,
        by simp only [Bool.not_eq_true] at hmem; exact hmem, (Except.ok.inj hJ).symm⟩

theorem leave_ok_eq {s s' : HuddleStore} {i u : String}
    (hL : HuddleStore.Leave s i u = .ok s') :
    ∃ huddle, s.find? (fun h => h.id == i) = some huddle ∧
      huddle.participants.any (fun p => p == u) = true ∧
      s' = updateFirstP s (fun h => h.id == i) (leaveRemove u) := by
  unfold HuddleStore.Leave at hL
  split at hL
  · exact absurd hL (by simp)
  · rename_i huddle hfind
    split at hL
    · rename_i hmem
      exact ⟨huddle, hfind, hmem, (Except.ok.inj hL).symm⟩
    · exact absurd hL (by simp)

theorem end_ok_eq {s s' : HuddleStore} {i : String}
    (hE : HuddleStore.End s i = .ok s') :
    s' = s.filter (fun h => !(h.id == i)) := by
  unfold HuddleStore.End at hE
  by_cases hany : s.any (fun h => h.id == i) = true
  · rw [if_pos hany] at hE
    exact (Except.ok.inj hE).symm
  · rw [if_neg hany] at hE
    exact absurd hE (by simp)

theorem endByChannel_ok_eq {s s' : HuddleStore} {c : String}
    (hE : HuddleStore.EndByChannel s c = .ok s') :
    ∃ huddle, s.find? (fun h => h.channelName == c) = some huddle ∧
      s' = s.filter (fun h => !(h.id == huddle.id)) := by
  unfold HuddleStore.EndByChannel at hE
  cases hfind : s.find? (fun h => h.channelName == c) with
  | none => rw [hfind] at hE; exact absurd hE (by simp)
  | some huddle =>
    rw [hfind] at hE
    exact ⟨huddle, rfl, (Except.ok.inj hE).symm⟩

theorem joinAppend_id (u : String) (h : Huddle) : (joinAppend u h).id = h.id := rfl

theorem joinAppend_channelName (u : String) (h : Huddle) :
    (joinAppend u h).channelName = h.channelName := rfl

theorem leaveRemove_id (u : String) (h : Huddle) : (leaveRemove u h).id = h.id := rfl

theorem leaveRemove_channelName (u : String) (h : Huddle) :
    (leaveRemove u h).channelName = h.channelName := rfl

theorem joinByChannelUpdate_id (u : String) (h : Huddle) :
    (joinByChannelUpdate u h).id = h.id := by
  unfold joinByChannelUpdate
  by_cases hmem : h.participants.any (fun p => p == u) = true
  · rw [if_pos hmem]
  · rw [if_neg hmem]

theorem joinByChannelUpdate_channelName (u : String) (h : Huddle) :
    (joinByChannelUpdate u h).channelName = h.channelName := by
  unfold joinByChannelUpdate
  by_cases hmem : h.participants.any (fun p => p == u) = true
  · rw [if_pos hmem]
  · rw [if_neg hmem]

/-! ### Membership and Bool-test bridging lemmas -/

theorem any_beq_iff_mem {l : List String} {u : String} :
    l.any (fun p => p == u) = true ↔ u ∈ l := by
  simp [List.any_eq_true]

theorem not_mem_of_any_beq_false {l : List String} {u : String}
    (h : l.any (fun p => p == u) = false) : u ∉ l := by
  intro hu
  rw [← any_beq_iff_mem] at hu
  rw [h] at hu
  exact Bool.false_ne_true hu

theorem insertHuddle_eq_append {s : HuddleStore} {h : Huddle}
    (hf : h.id ∉ storeIds s) : insertHuddle s h = s ++ [h] :=
  insertHuddle_fresh hf

theorem mem_insertHuddle {s : HuddleStore} {h x : Huddle}
    (hx : x ∈ insertHuddle s h) : x ∈ s ∨ x = h := by
  unfold insertHuddle at hx
  split at hx
  · rename_i hany
    obtain ⟨h0, hh0, hp0⟩ := List.any_eq_true.mp hany
    have hsome : (s.find? (fun h0 => h0.id == h.id)).isSome :=
      List.find?_isSome.mpr ⟨h0, hh0, hp0⟩
    obtain ⟨h1, hh1⟩ := Option.isSome_iff_exists.mp hsome
    rcases mem_updateFirstP_of_find? hh1 hx with hmem | rfl
    · exact Or.inl hmem
    · exact Or.inr rfl
  · rcases List.mem_append.mp hx with hmem | hone
    · exact Or.inl hmem
    · exact Or.inr (List.mem_singleton.mp hone)

/-! ### Invariants of reachable stores -/

/-- Every huddle in the store has a duplicate-free participant list. -/
def ParticipantsNodup (s : HuddleStore) : Prop :=
  ∀ h ∈ s, h.participants.Nodup

theorem participantsNodup_of_reachable {s : HuddleStore} (hs : Reachable s) :
    ParticipantsNodup s := by
  induction hs with
  | empty => intro h hh; exact absurd hh (List.not_mem_nil h)
  | @step s op hr hfresh ih =>
    cases op with
    | create cb fid now =>
      intro h hh
      simp only [applyOp, HuddleStore.Create] at hh
      rcases mem_insertHuddle hh with hmem | rfl
      · exact ih h hmem
      · exact List.nodup_nil
    | getOrCreate c u fid now =>
      intro h hh
      simp only [applyOp, HuddleStore.GetOrCreate] at hh
      rcases hfind : s.find? (fun h0 => h0.channelName == c) with _ | h0
      · rw [hfind] at hh
        simp only at hh
        rcases mem_insertHuddle hh with hmem | rfl
        · exact ih h hmem
        · exact List.nodup_nil
      · rw [hfind] at hh
        exact ih h hh
    | join i u =>
      intro h hh
      simp only [applyOp] at hh
      rcases hJ : HuddleStore.Join s i u with e | s'
      · rw [hJ] at hh; exact ih h hh
      · rw [hJ] at hh
        rcases join_ok_eq hJ with rfl | ⟨huddle, hfind, hnotmem, rfl⟩
        · exact ih h hh
        · rcases mem_updateFirstP_of_find? hfind hh with hmem | rfl
          · exact ih h hmem
          · exact nodup_concat (ih huddle (List.mem_of_find?_eq_some hfind))
              (not_mem_of_any_beq_false hnotmem)
    | joinByChannel c u =>
      intro h hh
      simp only [applyOp, HuddleStore.JoinByChannel] at hh
      rcases hfind : s.find? (fun h0 => h0.channelName == c) with _ | h0
      · rw [updateFirstP_of_find?_none hfind] at hh
        exact ih h hh
      · rcases mem_updateFirstP_of_find? hfind hh with hmem | rfl
        · exact ih h hmem
        · unfold joinByChannelUpdate
          rcases hmem : h0.participants.any (fun p => p == u) with _ | _
          · rw [if_neg Bool.false_ne_true]
            exact nodup_concat (ih h0 (List.mem_of_find?_eq_some hfind))
              (not_mem_of_any_beq_false hmem)
          · rw [if_pos rfl]
            exact ih h0 (List.mem_of_find?_eq_some hfind)
    | leave i u =>
      intro h hh
      simp only [applyOp] at hh
      rcases hL : HuddleStore.Leave s i u with e | s'
      · rw [hL] at hh; exact ih h hh
      · rw [hL] at hh
        obtain ⟨huddle, hfind, hmem, rfl⟩ := leave_ok_eq hL
        rcases mem_updateFirstP_of_find? hfind hh with hmem2 | rfl
        · exact ih h hmem2
        · exact List.Nodup.erase u (ih huddle (List.mem_of_find?_eq_some hfind))
    | endHuddle i =>
      intro h hh
      simp only [applyOp] at hh
      rcases hE : HuddleStore.End s i with e | s'
      · rw [hE] at hh; exact ih h hh
      · rw [hE] at hh
        rw [end_ok_eq hE] at hh
        exact ih h (List.mem_of_mem_filter hh)
    | endByChannel c =>
      intro h hh
      simp only [applyOp] at hh
      rcases hE : HuddleStore.EndByChannel s c with e | s'
      · rw [hE] at hh; exact ih h hh
      · rw [hE] at hh
        obtain ⟨huddle, hfind, rfl⟩ := endByChannel_ok_eq hE
        exact ih h (List.mem_of_mem_filter hh)

theorem not_mem_storeChannels_of_find?_none {s : HuddleStore} {c : String}
    (hf : s.find? (fun h => h.channelName == c) = none) :
    c ∉ storeChannels s := by
  intro hc
  obtain ⟨h0, hh0, he⟩ := List.mem_map.mp hc
  have := List.find?_eq_none.mp hf h0 hh0
  simp [he] at this

theorem channelsNodup_filter {s : HuddleStore} {q : Huddle → Bool}
    (h : (storeChannels s).Nodup) : (storeChannels (s.filter q)).Nodup :=
  List.Nodup.sublist (List.Sublist.map Huddle.channelName (List.filter_sublist s)) h

theorem channelsNodup_of_reachableSafe {s : HuddleStore}
    (hs : ReachableSafe s) : (storeChannels s).Nodup := by
  induction hs with
  | empty => exact List.nodup_nil
  | @step s op hr hfresh hsafe ih =>
    cases op with
    | create cb fid now =>
      have key : applyOp s (.create cb fid now) =
          s ++ [{ id := fid, channelName := "huddle_" ++ fid.take 8,
                  createdBy := cb, createdAt := now, participants := [] }] := by
        show (HuddleStore.Create s cb fid now).2 = _
        unfold HuddleStore.Create
        exact insertHuddle_eq_append hfresh
      rw [key]
      simp only [storeChannels, List.map_append, List.map_cons, List.map_nil]
      exact nodup_concat ih hsafe
    | getOrCreate c u fid now =>
      rcases hfind : s.find? (fun h0 => h0.channelName == c) with _ | h0
      · have key : applyOp s (.getOrCreate c u fid now) =
            s ++ [{ id := fid, channelName := c, createdBy := u,
                    createdAt := now, participants := [] }] := by
          show (HuddleStore.GetOrCreate s c u fid now).2 = _
          unfold HuddleStore.GetOrCreate
          rw [hfind]
          exact insertHuddle_eq_append hfresh
        rw [key]
        simp only [storeChannels, List.map_append, List.map_cons, List.map_nil]
        exact nodup_concat ih (not_mem_storeChannels_of_find?_none hfind)
      · have key : applyOp s (.getOrCreate c u fid now) = s := by
          show (HuddleStore.GetOrCreate s c u fid now).2 = _
          unfold HuddleStore.GetOrCreate
          rw [hfind]
        rw [key]
        exact ih
    | join i u =>
      rcases hJ : HuddleStore.Join s i u with e | s'
      · simpa only [applyOp, hJ] using ih
      · have key : applyOp s (.join i u) = s' := by simp [applyOp, hJ]
        rw [key]
        rcases join_ok_eq hJ with rfl | ⟨huddle, hfind, hnm, rfl⟩
        · exact ih
        · rw [storeChannels_updateFirstP (joinAppend_channelName u)]
          exact ih
    | joinByChannel c u =>
      have key : applyOp s (.joinByChannel c u) =
          updateFirstP s (fun h => h.channelName == c) (joinByChannelUpdate u) := rfl
      rw [key, storeChannels_updateFirstP (joinByChannelUpdate_channelName u)]
      exact ih
    | leave i u =>
      rcases hL : HuddleStore.Leave s i u with e | s'
      · simpa only [applyOp, hL] using ih
      · have key : applyOp s (.leave i u) = s' := by simp [applyOp, hL]
        rw [key]
        obtain ⟨huddle, hfind, hm, rfl⟩ := leave_ok_eq hL
        rw [storeChannels_updateFirstP (leaveRemove_channelName u)]
        exact ih
    | endHuddle i =>
      rcases hE : HuddleStore.End s i with e | s'
      · simpa only [applyOp, hE] using ih
      · have key : applyOp s (.endHuddle i) = s' := by simp [applyOp, hE]
        rw [key, end_ok_eq hE]
        exact channelsNodup_filter ih
    | endByChannel c =>
      rcases hE : HuddleStore.EndByChannel s c with e | s'
      · simpa only [applyOp, hE] using ih
      · have key : applyOp s (.endByChannel c) = s' := by simp [applyOp, hE]
        rw [key]
        obtain ⟨huddle, hfind, rfl⟩ := endByChannel_ok_eq hE
        exact channelsNodup_filter ih

/-! ### Claim theorems -/

/-- A concrete huddle used to instantiate theorems with hypotheses. -/
def wH : Huddle :=
  { id := "id1", channelName := "chan1", createdBy := "u1", createdAt := 0,
    participants := ["alice"] }

/-- C1: `GetOrCreate(channelName, userId)` returns the existing huddle whose
`channelName` equals the argument when one is present, and otherwise inserts
and returns a new huddle whose `channelName` is exactly the given string (not
a derived name), whose `createdBy` is `userId`, and whose participants are
empty. -/
theorem C1_getOrCreate_spec (s : HuddleStore) (c u fid : String) (now : Nat) :
    (∀ h, HuddleStore.GetByChannel s c = some h →
      h ∈ s ∧ h.channelName = c ∧
        HuddleStore.GetOrCreate s c u fid now = (h, s)) ∧
    (HuddleStore.GetByChannel s c = none → fid ∉ storeIds s →
      HuddleStore.GetOrCreate s c u fid now =
        ({ id := fid, channelName := c, createdBy := u, createdAt := now,
           participants := [] },
         s ++ [{ id := fid, channelName := c, createdBy := u, createdAt := now,
                 participants := [] }])) := by
  constructor
  · intro h hf
    have hf' : s.find? (fun h0 => h0.channelName == c) = some h := hf
    refine ⟨List.mem_of_find?_eq_some hf', by simpa using List.find?_some hf', ?_⟩
    unfold HuddleStore.GetOrCreate
    rw [hf']
  · intro hnone hfresh
    have hf' : s.find? (fun h0 => h0.channelName == c) = none := hnone
    unfold HuddleStore.GetOrCreate
    rw [hf']
    exact congrArg (Prod.mk _) (insertHuddle_fresh hfresh)

/-- Witness for C1: both branches of `GetOrCreate` at concrete inputs. -/
theorem C1_getOrCreate_spec_witness :
    HuddleStore.GetOrCreate [wH] "chan1" "u2" "id2" 5 = (wH, [wH]) ∧
    HuddleStore.GetOrCreate [wH] "chan2" "u2" "id2" 5 =
      ({ id := "id2", channelName := "chan2", createdBy := "u2", createdAt := 5,
         participants := [] },
       [wH, { id := "id2", channelName := "chan2", createdBy := "u2",
              createdAt := 5, participants := [] }]) :=
  ⟨((C1_getOrCreate_spec [wH] "chan1" "u2" "id2" 5).1 wH (by decide)).2.2,
   (C1_getOrCreate_spec [wH] "chan2" "u2" "id2" 5).2 (by decide) (by decide)⟩

/-- C3: `Create(createdBy)` always succeeds and returns a huddle whose id is
the freshly generated uuid, whose channel name is the fixed text `huddle_`
followed by the first 8 characters of that id, whose creator and creation
time are as given, and whose participants are empty; the huddle is appended
to the store. -/
theorem C3_create_spec (s : HuddleStore) (cb fid : String) (now : Nat)
    (hfresh : fid ∉ storeIds s) :
    HuddleStore.Create s cb fid now =
      ({ id := fid, channelName := "huddle_" ++ fid.take 8, createdBy := cb,
         createdAt := now, participants := [] },
       s ++ [{ id := fid, channelName := "huddle_" ++ fid.take 8,
               createdBy := cb, createdAt := now, participants := [] }]) := by
  unfold HuddleStore.Create
  exact congrArg (Prod.mk _) (insertHuddle_fresh hfresh)

/-- Witness for C3: `Create` on a one-huddle store with a fresh uuid. -/
theorem C3_create_spec_witness :
    HuddleStore.Create [wH] "alice" "abcdefgh-1234" 7 =
      ({ id := "abcdefgh-1234", channelName := "huddle_abcdefgh",
         createdBy := "alice", createdAt := 7, participants := [] },
       [wH, { id := "abcdefgh-1234", channelName := "huddle_abcdefgh",
              createdBy := "alice", createdAt := 7, participants := [] }]) := by
  rw [C3_create_spec [wH] "alice" "abcdefgh-1234" 7 (by decide)]
  decide

/-- C10: when a huddle with the given channel name already exists,
`GetOrCreate` leaves the store completely unchanged and returns a huddle
already in the store with that channel name; in particular it neither adds
`userId` to the participants nor alters `createdBy`. -/
theorem C10_getOrCreate_noop (s : HuddleStore) (c u fid : String) (now : Nat)
    (hex : ∃ h ∈ s, h.channelName = c) :
    (HuddleStore.GetOrCreate s c u fid now).2 = s ∧
    (HuddleStore.GetOrCreate s c u fid now).1 ∈ s ∧
    (HuddleStore.GetOrCreate s c u fid now).1.channelName = c := by
  obtain ⟨h0, hh0, he⟩ := hex
  have hsome : (s.find? (fun h => h.channelName == c)).isSome :=
    List.find?_isSome.mpr ⟨h0, hh0, by simp [he]⟩
  obtain ⟨h1, hf⟩ := Option.isSome_iff_exists.mp hsome
  unfold HuddleStore.GetOrCreate
  rw [hf]
  exact ⟨rfl, List.mem_of_find?_eq_some hf, by simpa using List.find?_some hf⟩

/-- Witness for C10: `GetOrCreate` on an existing channel changes nothing. -/
theorem C10_getOrCreate_noop_witness :
    (HuddleStore.GetOrCreate [wH] "chan1" "x" "idX" 9).2 = [wH] ∧
    (HuddleStore.GetOrCreate [wH] "chan1" "x" "idX" 9).1 ∈ [wH] ∧
    (HuddleStore.GetOrCreate [wH] "chan1" "x" "idX" 9).1.channelName = "chan1" :=
  C10_getOrCreate_noop [wH] "chan1" "x" "idX" 9 ⟨wH, by decide, by decide⟩

/-- The huddle `GetOrCreate` makes for caller-chosen channel
`"huddle_00000000"`. -/
def cexHuddleG : Huddle :=
  { id := "gid", channelName := "huddle_00000000", createdBy := "u",
    createdAt := 0, participants := [] }

/-- The huddle `Create` then makes from the fresh uuid
`"00000000-0000-4000-8000-000000000000"`: its derived channel name collides
with `cexHuddleG`'s. -/
def cexHuddleC : Huddle :=
  { id := "00000000-0000-4000-8000-000000000000",
    channelName := "huddle_00000000", createdBy := "alice", createdAt := 1,
    participants := [] }

/-- A reachable store holding two active huddles with the same channel name. -/
def cexStore : HuddleStore := [cexHuddleG, cexHuddleC]

/-- Counterexample to C2: from the empty store, `GetOrCreate` with channel
`"huddle_00000000"` followed by `Create` whose fresh uuid starts with
`00000000` reaches a store whose two active huddles share a channel name —
`Create` never checks its derived name against caller-chosen ones. -/
theorem C2_counterexample :
    Reachable cexStore ∧ ¬ (storeChannels cexStore).Nodup := by
  refine ⟨?_, by decide⟩
  have h1 : Reachable (applyOp [] (Op.getOrCreate "huddle_00000000" "u" "gid" 0)) :=
    Reachable.step (Op.getOrCreate "huddle_00000000" "u" "gid" 0) Reachable.empty
      (show ("gid" : String) ∉ storeIds [] by decide)
  rw [show applyOp [] (Op.getOrCreate "huddle_00000000" "u" "gid" 0) = [cexHuddleG]
    by decide] at h1
  have h2 : Reachable (applyOp [cexHuddleG]
      (Op.create "alice" "00000000-0000-4000-8000-000000000000" 1)) :=
    Reachable.step (Op.create "alice" "00000000-0000-4000-8000-000000000000" 1) h1
      (show ("00000000-0000-4000-8000-000000000000" : String) ∉ storeIds [cexHuddleG]
        by decide)
  rw [show applyOp [cexHuddleG]
      (Op.create "alice" "00000000-0000-4000-8000-000000000000" 1) = cexStore
    by decide] at h2
  exact h2

/-- C2 (amended): in every store state reachable from the empty store by
registry operations, no two active huddles share a `channelName`, provided
additionally that each `Create` step's derived channel name
(`huddle_` + first 8 characters of its fresh id) is not already the channel
name of an active huddle — a precondition the code does not check.
`GetOrCreate` and all other operations preserve uniqueness unconditionally. -/
theorem C2_channel_unique_amended (s : HuddleStore) (hs : ReachableSafe s) :
    (storeChannels s).Nodup :=
  channelsNodup_of_reachableSafe hs

/-- Witness for the amended C2: a two-step safe trace — `GetOrCreate` then a
`Create` whose derived channel name is new — has duplicate-free channels. -/
theorem C2_channel_unique_amended_witness :
    (storeChannels (applyOp [cexHuddleG]
      (Op.create "alice" "aaaabbbb-0000-4000-8000-000000000000" 1))).Nodup := by
  have h1 : ReachableSafe (applyOp [] (Op.getOrCreate "huddle_00000000" "u" "gid" 0)) :=
    ReachableSafe.step (Op.getOrCreate "huddle_00000000" "u" "gid" 0)
      ReachableSafe.empty (show ("gid" : String) ∉ storeIds [] by decide) trivial
  rw [show applyOp [] (Op.getOrCreate "huddle_00000000" "u" "gid" 0) = [cexHuddleG]
    by decide] at h1
  exact C2_channel_unique_amended _
    (ReachableSafe.step (Op.create "alice" "aaaabbbb-0000-4000-8000-000000000000" 1) h1
      (show ("aaaabbbb-0000-4000-8000-000000000000" : String) ∉ storeIds [cexHuddleG]
        by decide)
      (show ("huddle_" ++ ("aaaabbbb-0000-4000-8000-000000000000" : String).take 8) ∉
        storeChannels [cexHuddleG] by decide))

/-- `[wH]` is reachable: `GetOrCreate` the channel, then `JoinByChannel`
adds `"alice"`. -/
theorem wH_reachable : Reachable [wH] := by
  have h1 : Reachable (applyOp [] (Op.getOrCreate "chan1" "u1" "id1" 0)) :=
    Reachable.step (Op.getOrCreate "chan1" "u1" "id1" 0) Reachable.empty
      (show ("id1" : String) ∉ storeIds [] by decide)
  have h2 : Reachable (applyOp (applyOp [] (Op.getOrCreate "chan1" "u1" "id1" 0))
      (Op.joinByChannel "chan1" "alice")) :=
    Reachable.step (Op.joinByChannel "chan1" "alice") h1 trivial
  rw [show applyOp (applyOp [] (Op.getOrCreate "chan1" "u1" "id1" 0))
      (Op.joinByChannel "chan1" "alice") = [wH] by decide] at h2
  exact h2

/-- C4: in every reachable store state, every huddle's participant list
holds each identifier at most once, and both `Join` and `JoinByChannel`
preserve this. -/
theorem C4_participants_nodup (s : HuddleStore) (hs : Reachable s) :
    (∀ h ∈ s, h.participants.Nodup) ∧
    (∀ i u s', HuddleStore.Join s i u = .ok s' →
      ∀ h ∈ s', h.participants.Nodup) ∧
    (∀ c u, ∀ h ∈ HuddleStore.JoinByChannel s c u, h.participants.Nodup) := by
  refine ⟨participantsNodup_of_reachable hs, ?_, ?_⟩
  · intro i u s' hJ
    have he : applyOp s (.join i u) = s' := by simp [applyOp, hJ]
    exact participantsNodup_of_reachable
      (he ▸ Reachable.step (Op.join i u) hs trivial)
  · intro c u
    exact participantsNodup_of_reachable
      (Reachable.step (Op.joinByChannel c u) hs trivial)

/-- Witness for C4 at a concrete reachable store and a concrete
`JoinByChannel` result. -/
theorem C4_participants_nodup_witness :
    wH.participants.Nodup ∧
    ({ wH with participants := ["alice", "bob"] } : Huddle).participants.Nodup :=
  ⟨(C4_participants_nodup [wH] wH_reachable).1 wH (by decide),
   (C4_participants_nodup [wH] wH_reachable).2.2 "chan1" "bob"
     { wH with participants := ["alice", "bob"] } (by decide)⟩

theorem find?_middle {a b : HuddleStore} {x : Huddle} {p : Huddle → Bool}
    (ha : ∀ y ∈ a, p y = false) (hx : p x = true) :
    (a ++ x :: b).find? p = some x := by
  induction a with
  | nil => exact List.find?_cons_of_pos b hx
  | cons y t ih =>
    rw [List.cons_append, List.find?_cons_of_neg]
    · exact ih fun z hz => ha z (List.mem_cons_of_mem y hz)
    · rw [ha y (List.mem_cons_self y t)]
      exact Bool.false_ne_true

theorem join_middle {a b : HuddleStore} {h : Huddle} {i u : String}
    (hid : (h.id == i) = true) (ha : ∀ y ∈ a, (y.id == i) = false) :
    HuddleStore.Join (a ++ h :: b) i u =
      if h.participants.any (fun p => p == u) then .ok (a ++ h :: b)
      else .ok (a ++ joinAppend u h :: b) := by
  have hf : (a ++ h :: b).find? (fun h0 => h0.id == i) = some h :=
    find?_middle ha hid
  simp only [HuddleStore.Join, hf]
  by_cases hmem : h.participants.any (fun p => p == u) = true
  · rw [if_pos hmem, if_pos hmem]
  · rw [if_neg hmem, if_neg hmem, updateFirstP_append ha hid]

theorem leave_middle {a b : HuddleStore} {h : Huddle} {i u : String}
    (hid : (h.id == i) = true) (ha : ∀ y ∈ a, (y.id == i) = false) :
    HuddleStore.Leave (a ++ h :: b) i u =
      if h.participants.any (fun p => p == u) then
        .ok (a ++ leaveRemove u h :: b)
      else .error "user not in huddle" := by
  have hf : (a ++ h :: b).find? (fun h0 => h0.id == i) = some h :=
    find?_middle ha hid
  simp only [HuddleStore.Leave, hf]
  by_cases hmem : h.participants.any (fun p => p == u) = true
  · rw [if_pos hmem, if_pos hmem, updateFirstP_append ha hid]
  · rw [if_neg hmem, if_neg hmem]

/-- C5: `Join` is idempotent — when the huddle exists and the user is already
a member, `Join` succeeds and leaves the whole store unchanged; hence a
second `Join` after any successful `Join` returns the state of the first
unchanged. -/
theorem C5_join_idempotent (s : HuddleStore) (i u : String) :
    (∀ h, HuddleStore.Get s i = some h → u ∈ h.participants →
      HuddleStore.Join s i u = .ok s) ∧
    (∀ s', HuddleStore.Join s i u = .ok s' →
      HuddleStore.Join s' i u = .ok s') := by
  constructor
  · intro h hget hmem
    have hf : s.find? (fun h0 => h0.id == i) = some h := hget
    simp only [HuddleStore.Join, hf]
    rw [if_pos (any_beq_iff_mem.mpr hmem)]
  · intro s' hJ
    rcases join_ok_eq hJ with rfl | ⟨huddle, hfind, hnm, rfl⟩
    · exact hJ
    · obtain ⟨hp, a, b, rfl, ha⟩ := find?_decomp hfind
      rw [updateFirstP_append ha hp, join_middle (by simpa using hp)
        (fun y hy => ha y hy)]
      rw [if_pos (any_beq_iff_mem.mpr (by simp [joinAppend]))]

/-- Witness for C5: joining an existing member, and re-joining after a
successful join. -/
theorem C5_join_idempotent_witness :
    HuddleStore.Join [wH] "id1" "alice" = .ok [wH] ∧
    HuddleStore.Join [{ wH with participants := ["alice", "bob"] }] "id1" "bob" =
      .ok [{ wH with participants := ["alice", "bob"] }] :=
  ⟨(C5_join_idempotent [wH] "id1" "alice").1 wH (by decide) (by decide),
   (C5_join_idempotent [wH] "id1" "bob").2
     [{ wH with participants := ["alice", "bob"] }] rfl⟩

theorem get_eq_none_iff {s : HuddleStore} {i : String} :
    HuddleStore.Get s i = none ↔ s.any (fun h => h.id == i) = false := by
  unfold HuddleStore.Get
  simp [List.find?_eq_none, List.any_eq_false]

/-- C6: `Join` and `End` report the not-found error exactly when the id is
absent, and `Leave` reports it exactly when the id is absent or the user is
not a participant of the addressed huddle; in every other case they
succeed. -/
theorem C6_notfound_conditions (s : HuddleStore) (i u : String) :
    ((∃ e, HuddleStore.Join s i u = .error e) ↔ HuddleStore.Get s i = none) ∧
    ((∃ e, HuddleStore.End s i = .error e) ↔ HuddleStore.Get s i = none) ∧
    ((∃ e, HuddleStore.Leave s i u = .error e) ↔
      (HuddleStore.Get s i = none ∨
        ∃ h, HuddleStore.Get s i = some h ∧ u ∉ h.participants)) := by
  refine ⟨?_, ?_, ?_⟩
  · cases hf : s.find? (fun h0 => h0.id == i) with
    | none =>
      simp only [HuddleStore.Join, hf]
      exact iff_of_true ⟨"huddle not found", rfl⟩ hf
    | some h =>
      simp only [HuddleStore.Join, hf]
      refine iff_of_false ?_ ?_
      · rintro ⟨e, he⟩
        split at he <;> exact absurd he (by simp)
      · intro hnone
        have : s.find? (fun h0 => h0.id == i) = none := hnone
        rw [hf] at this
        exact absurd this (by simp)
  · unfold HuddleStore.End
    by_cases hany : s.any (fun h0 => h0.id == i) = true
    · rw [if_pos hany]
      refine iff_of_false (by rintro ⟨e, he⟩; exact absurd he (by simp)) ?_
      intro hnone
      rw [get_eq_none_iff] at hnone
      rw [hnone] at hany
      exact Bool.false_ne_true hany
    · rw [if_neg hany]
      refine iff_of_true ⟨"huddle not found", rfl⟩ ?_
      rw [get_eq_none_iff]
      simp only [Bool.not_eq_true] at hany
      exact hany
  · cases hf : s.find? (fun h0 => h0.id == i) with
    | none =>
      simp only [HuddleStore.Leave, hf]
      exact iff_of_true ⟨"huddle not found", rfl⟩ (Or.inl hf)
    | some h =>
      simp only [HuddleStore.Leave, hf]
      by_cases hmem : h.participants.any (fun p => p == u) = true
      · rw [if_pos hmem]
        refine iff_of_false (by rintro ⟨e, he⟩; exact absurd he (by simp)) ?_
        rintro (hnone | ⟨h2, hget, hnm⟩)
        · have : s.find? (fun h0 => h0.id == i) = none := hnone
          rw [hf] at this
          exact absurd this (by simp)
        · have hgg : s.find? (fun h0 => h0.id == i) = some h2 := hget
          rw [hf] at hgg
          have := Option.some.inj hgg
          subst this
          exact hnm (any_beq_iff_mem.mp hmem)
      · rw [if_neg hmem]
        refine iff_of_true ⟨"user not in huddle", rfl⟩ (Or.inr ⟨h, hf, ?_⟩)
        simp only [Bool.not_eq_true] at hmem
        exact not_mem_of_any_beq_false hmem

/-- C7: when no huddle matches the channel name, `JoinByChannel` surfaces no
error and leaves the store completely unchanged; when one matches, it
behaves exactly as a successful `Join` on that huddle's id. -/
theorem C7_joinByChannel_spec (s : HuddleStore) (c u : String) :
    (HuddleStore.GetByChannel s c = none →
      HuddleStore.JoinByChannel s c u = s) ∧
    ((storeIds s).Nodup → ∀ h, HuddleStore.GetByChannel s c = some h →
      HuddleStore.Join s h.id u = .ok (HuddleStore.JoinByChannel s c u)) := by
  constructor
  · intro hnone
    exact updateFirstP_of_find?_none hnone
  · intro hnodup h hf
    have hf' : s.find? (fun h0 => h0.channelName == c) = some h := hf
    obtain ⟨hp, a, b, rfl, ha⟩ := find?_decomp hf'
    have ha2 : ∀ y ∈ a, (y.id == h.id) = false := by
      intro y hy
      have hnotmem : h.id ∉ a.map Huddle.id := by
        simp only [storeIds, List.map_append, List.map_cons] at hnodup
        rw [List.nodup_middle] at hnodup
        have hni := (List.nodup_cons.mp hnodup).1
        exact fun hc => hni (List.mem_append.mpr (Or.inl hc))
      rw [beq_eq_false_iff_ne]
      intro he
      exact hnotmem (he ▸ List.mem_map_of_mem Huddle.id hy)
    have hjbc : HuddleStore.JoinByChannel (a ++ h :: b) c u =
        a ++ joinByChannelUpdate u h :: b := updateFirstP_append ha hp
    rw [hjbc, join_middle (by simp) ha2]
    unfold joinByChannelUpdate
    by_cases hmem : h.participants.any (fun p => p == u) = true
    · rw [if_pos hmem, if_pos hmem]
    · rw [if_neg hmem, if_neg hmem]
      rfl

/-- Witness for C7: a missing channel is a silent no-op, and a present
channel behaves as `Join` by id. -/
theorem C7_joinByChannel_spec_witness :
    HuddleStore.JoinByChannel [wH] "nochan" "bob" = [wH] ∧
    HuddleStore.Join [wH] "id1" "bob" =
      .ok (HuddleStore.JoinByChannel [wH] "chan1" "bob") :=
  ⟨(C7_joinByChannel_spec [wH] "nochan" "bob").1 (by decide),
   (C7_joinByChannel_spec [wH] "chan1" "bob").2 (by decide) wH (by decide)⟩

/-- C8: when the addressed huddle exists (it sits at the position shown, with
no earlier huddle carrying its id) and `userId` occurs exactly once in its
participant list (split as `pre ++ u :: post` with `u` in neither side),
`Leave` succeeds and the new participant list is `pre ++ post`: exactly that
occurrence is removed, every other participant kept in order, and every
other huddle untouched. -/
theorem C8_leave_spec (i u : String) (a b : HuddleStore) (h : Huddle)
    (pre post : List String) (hid : h.id = i) (ha : ∀ x ∈ a, x.id ≠ i)
    (hparts : h.participants = pre ++ u :: post) (hpre : u ∉ pre)
    (_hpost : u ∉ post) :
    HuddleStore.Leave (a ++ h :: b) i u =
      .ok (a ++ { h with participants := pre ++ post } :: b) := by
  have ha' : ∀ y ∈ a, (y.id == i) = false :=
    fun y hy => beq_eq_false_iff_ne.mpr (ha y hy)
  rw [leave_middle (by simp [hid]) ha']
  rw [if_pos (any_beq_iff_mem.mpr
    (by rw [hparts]; exact List.mem_append_right _ (List.mem_cons_self u post)))]
  have herase : h.participants.erase u = pre ++ post := by
    rw [hparts, List.erase_append_right _ hpre, List.erase_cons_head]
  unfold leaveRemove
  rw [herase]

/-- Witness for C8: `"alice"` leaves the one-huddle store. -/
theorem C8_leave_spec_witness :
    HuddleStore.Leave [wH] "id1" "alice" =
      .ok [{ wH with participants := [] }] :=
  C8_leave_spec "id1" "alice" [] [] wH [] [] (by decide) (by simp) rfl
    (by simp) (by simp)

/-- C9: a successful `Join` or `Leave` changes only the participants field of
the addressed huddle — its id, channel name, creator and creation time, and
every other huddle in the store, are identical before and after. -/
theorem C9_join_leave_frame (s : HuddleStore) (i u : String) :
    (∀ s', HuddleStore.Join s i u = .ok s' →
      ∃ a h h' b, s = a ++ h :: b ∧ s' = a ++ h' :: b ∧ h.id = i ∧
        h'.id = h.id ∧ h'.channelName = h.channelName ∧
        h'.createdBy = h.createdBy ∧ h'.createdAt = h.createdAt) ∧
    (∀ s', HuddleStore.Leave s i u = .ok s' →
      ∃ a h h' b, s = a ++ h :: b ∧ s' = a ++ h' :: b ∧ h.id = i ∧
        h'.id = h.id ∧ h'.channelName = h.channelName ∧
        h'.createdBy = h.createdBy ∧ h'.createdAt = h.createdAt) := by
  constructor
  · intro s' hJ
    cases hfind : s.find? (fun h0 => h0.id == i) with
    | none =>
      simp only [HuddleStore.Join, hfind] at hJ
      exact absurd hJ (by simp)
    | some h =>
      obtain ⟨hp, a, b, rfl, ha⟩ := find?_decomp hfind
      rw [join_middle hp ha] at hJ
      by_cases hmem : h.participants.any (fun p => p == u) = true
      · rw [if_pos hmem] at hJ
        exact ⟨a, h, h, b, rfl, (Except.ok.inj hJ).symm, eq_of_beq hp,
          rfl, rfl, rfl, rfl⟩
      · rw [if_neg hmem] at hJ
        exact ⟨a, h, joinAppend u h, b, rfl, (Except.ok.inj hJ).symm,
          eq_of_beq hp, rfl, rfl, rfl, rfl⟩
  · intro s' hL
    cases hfind : s.find? (fun h0 => h0.id == i) with
    | none =>
      simp only [HuddleStore.Leave, hfind] at hL
      exact absurd hL (by simp)
    | some h =>
      obtain ⟨hp, a, b, rfl, ha⟩ := find?_decomp hfind
      rw [leave_middle hp ha] at hL
      by_cases hmem : h.participants.any (fun p => p == u) = true
      · rw [if_pos hmem] at hL
        exact ⟨a, h, leaveRemove u h, b, rfl, (Except.ok.inj hL).symm,
          eq_of_beq hp, rfl, rfl, rfl, rfl⟩
      · rw [if_neg hmem] at hL
        exact absurd hL (by simp)

/-- Witness for C9: after `Join [wH] "id1" "bob"` the updated huddle keeps
its id, channel name, creator and creation time. -/
theorem C9_join_leave_frame_witness :
    ({ wH with participants := ["alice", "bob"] } : Huddle).id = "id1" ∧
    ({ wH with participants := ["alice", "bob"] } : Huddle).channelName =
      wH.channelName ∧
    ({ wH with participants := ["alice", "bob"] } : Huddle).createdBy =
      wH.createdBy ∧
    ({ wH with participants := ["alice", "bob"] } : Huddle).createdAt =
      wH.createdAt := by
  obtain ⟨a, h, h', b, h1, h2, h3, h4, h5, h6, h7⟩ :=
    (C9_join_leave_frame [wH] "id1" "bob").1
      [{ wH with participants := ["alice", "bob"] }] rfl
  cases a with
  | nil =>
    obtain ⟨e1, eb⟩ : wH = h ∧ b = [] := by simpa using h1
    obtain ⟨e2, -⟩ :
        ({ wH with participants := ["alice", "bob"] } : Huddle) = h' ∧ b = [] := by
      simpa using h2
    subst e1
    subst e2
    exact ⟨h4.trans h3, h5, h6, h7⟩
  | cons x t =>
    simp at h1
